import Mathlib

/-!
Verification of the dropblox sample AI (`src/main.py`) against its
natural-language specification.

The Python program is shallowly embedded: every class method of `Block` and
`Board` and the `__main__` placement-search loop becomes a pure Lean
function over explicit state.  Python integers are `Int` (grid cell values,
which are 0/1 occupancy bits, are `Nat`), mutation of the shared current
block is explicit state passing, the `while` loops of `place` and of the
probing phase are fuel-indexed recursions returning `Option` (`none` models
a loop that Python would never exit), and raised `InvalidMoveError`
exceptions are `Except Unit`.
-/

set_option autoImplicit false

namespace Dropblox

/-- An (i, j) position on a board (`class Point`).  Coordinates are Python
integers, hence `Int`. -/
structure Point where
  i : Int
  j : Int
deriving DecidableEq, Repr

/-- The movable piece (`class Block`): immutable `center` and `offsets`,
mutable `translation` and unbounded `rotation` counter. -/
structure Block where
  center : Point
  offsets : List Point
  translation : Point
  rotation : Int
deriving DecidableEq, Repr

/-- `Block.squares`: the absolute cells occupied by the block, one per
offset, translated from the two-branch Python generator verbatim
(`rotation % 2` selects the branch; the raw rotation enters the
multiplier). -/
def Block.squares (b : Block) : List Point :=
  if b.rotation % 2 ≠ 0 then
    b.offsets.map fun o =>
      ⟨b.center.i + b.translation.i + (2 - b.rotation) * o.j,
       b.center.j + b.translation.j - (2 - b.rotation) * o.i⟩
  else
    b.offsets.map fun o =>
      ⟨b.center.i + b.translation.i + (1 - b.rotation) * o.i,
       b.center.j + b.translation.j + (1 - b.rotation) * o.j⟩

/-- `Block.left`: `translation.j -= 1`. -/
def Block.left (b : Block) : Block :=
  { b with translation := ⟨b.translation.i, b.translation.j - 1⟩ }

/-- `Block.right`: `translation.j += 1`. -/
def Block.right (b : Block) : Block :=
  { b with translation := ⟨b.translation.i, b.translation.j + 1⟩ }

/-- `Block.up`: `translation.i -= 1`. -/
def Block.up (b : Block) : Block :=
  { b with translation := ⟨b.translation.i - 1, b.translation.j⟩ }

/-- `Block.down`: `translation.i += 1`. -/
def Block.down (b : Block) : Block :=
  { b with translation := ⟨b.translation.i + 1, b.translation.j⟩ }

/-- `Block.rotate`: `rotation += 1`. -/
def Block.rotate (b : Block) : Block :=
  { b with rotation := b.rotation + 1 }

/-- `Block.unrotate`: `rotation -= 1`. -/
def Block.unrotate (b : Block) : Block :=
  { b with rotation := b.rotation - 1 }

/-- `Block.reset_position`: translation to (0,0), rotation to 0. -/
def Block.reset_position (b : Block) : Block :=
  { b with translation := ⟨0, 0⟩, rotation := 0 }

/-- The move tokens handled by the executor. -/
inductive Command where
  | left | right | up | down | rotate | drop
deriving DecidableEq, Repr

/-- `Block.do_command`: dispatch one non-drop token to the matching
primitive.  The `drop` token never reaches this function (the executor
intercepts it first; Python would fail its `assert`), so that branch is the
identity. -/
def Block.do_command (b : Block) (c : Command) : Block :=
  match c with
  | .left => b.left
  | .right => b.right
  | .up => b.up
  | .down => b.down
  | .rotate => b.rotate
  | .drop => b

/-- A board (`class Board`): occupancy bitmap, current block, preview
queue. -/
structure Board where
  bitmap : List (List Nat)
  block : Block
  preview : List Block
deriving DecidableEq, Repr

/-- `Board.rows = 33` (class attribute; an `Int` since it only bounds the
integer square coordinates). -/
def Board.rows : Int := 33

/-- `Board.cols = 12` (class attribute). -/
def Board.cols : Int := 12

/-- Bounds-guarded grid read, `bitmap[i][j]`.  `none` when either index is
out of range; `Board.check` consults it only after its own bounds tests, so
for a 33×12 grid the result is always `some`. -/
def cellRead (bm : List (List Nat)) (i j : Int) : Option Nat :=
  if 0 ≤ i ∧ 0 ≤ j then (bm[i.toNat]?).bind fun row => row[j.toNat]? else none

/-- `Board.check`: every square of the block is in `[0,33) × [0,12)` and
lands on a 0 cell.  The Python loop returns `False` at the first square
failing the combined test; `List.all` is that loop. -/
def Board.check (bd : Board) (blk : Block) : Bool :=
  blk.squares.all fun sq =>
    decide (0 ≤ sq.i) && decide (sq.i < Board.rows) &&
    decide (0 ≤ sq.j) && decide (sq.j < Board.cols) &&
    (cellRead bd.bitmap sq.i sq.j == some 0)

/-- `Board.check` rewritten with the exception behaviour of the Python
loop made explicit: per square, the four bounds tests short-circuit before
the grid is indexed, and an out-of-range grid access is `Except.error`
(Python `IndexError`). -/
def Board.checkSquaresE (bd : Board) : List Point → Except Unit Bool
  | [] => .ok true
  | sq :: rest =>
    if sq.i < 0 ∨ Board.rows ≤ sq.i ∨ sq.j < 0 ∨ Board.cols ≤ sq.j then
      .ok false
    else
      match cellRead bd.bitmap sq.i sq.j with
      | none => .error ()
      | some v => if v ≠ 0 then .ok false else bd.checkSquaresE rest

/-- `Board.check` with explicit out-of-range-access errors. -/
def Board.checkE (bd : Board) (blk : Block) : Except Unit Bool :=
  bd.checkSquaresE blk.squares

/-- The checked probing moves (`Block.checked_left` etc.): apply the
primitive; on an illegal result undo it with the exact inverse and report
failure.  The returned block is the mutated `self`. -/
def Block.checked_left (blk : Block) (bd : Board) : Bool × Block :=
  let b := blk.left
  if bd.check b then (true, b) else (false, b.right)

/-- `Block.checked_right`. -/
def Block.checked_right (blk : Block) (bd : Board) : Bool × Block :=
  let b := blk.right
  if bd.check b then (true, b) else (false, b.left)

/-- `Block.checked_down`. -/
def Block.checked_down (blk : Block) (bd : Board) : Bool × Block :=
  let b := blk.down
  if bd.check b then (true, b) else (false, b.up)

/-- `Block.checked_up`. -/
def Block.checked_up (blk : Block) (bd : Board) : Bool × Block :=
  let b := blk.up
  if bd.check b then (true, b) else (false, b.down)

/-- `Block.checked_rotate`. -/
def Block.checked_rotate (blk : Block) (bd : Board) : Bool × Block :=
  let b := blk.rotate
  if bd.check b then (true, b) else (false, b.unrotate)

/-- `Board.remove_rows`: delete each row whose cells are all truthy
(`all(row)`), refill from the top with that many all-zero rows of width
`len(bitmap[0])`.  (`headD []` totalises `bitmap[0]`; the program only
passes non-empty bitmaps.) -/
def Board.remove_rows (bitmap : List (List Nat)) : List (List Nat) :=
  let rows := bitmap.length
  let cols := (bitmap.headD []).length
  let new_bitmap := bitmap.filter fun row => !(row.all fun x => x != 0)
  (List.replicate (rows - new_bitmap.length) (List.replicate cols 0)) ++ new_bitmap

/-- One grid write, `new_bitmap[square.i][square.j] = 1`.  Every call site
passes a coordinate of a pose that `check` validated, so both indices are
in range. -/
def cellWrite (bm : List (List Nat)) (i j : Int) : List (List Nat) :=
  bm.set i.toNat (((bm.getD i.toNat []).set j.toNat 1))

/-- The `while self.check(self.block): self.block.down()` loop of
`Board.place`, fuel-indexed.  `none` means the fuel ran out, which (shown
below) only happens when the block has no offsets, exactly the cases where
the Python loop never exits.  The returned block is the first one failing
`check` (the caller then moves it back `up`). -/
def drop_loop : Nat → Board → Block → Option Block
  | 0, _, _ => none
  | fuel + 1, bd, blk => if bd.check blk then drop_loop fuel bd blk.down else some blk

/-- `Board.place`: hard-drop the current block, merge its squares into a
copy of the bitmap, remove full rows, and advance the preview queue.
Result `none` is the non-terminating drop loop; `some (r, self)` gives the
Python return value `r` (`none` = Python `None`, returned after the
diagnostic print when the preview queue is empty) alongside the mutated
`self` (same bitmap and preview, dropped block). -/
def Board.place (bd : Board) : Option (Option Board × Board) :=
  match drop_loop 34 bd bd.block with
  | none => none
  | some stopped =>
    let blk := stopped.up
    let new_bitmap := blk.squares.foldl (fun nb sq => cellWrite nb sq.i sq.j) bd.bitmap
    let new_bitmap := Board.remove_rows new_bitmap
    let self := { bd with block := blk }
    match bd.preview with
    | [] => some (none, self)
    | p :: rest => some (some ⟨new_bitmap, p, rest⟩, self)

/-- The token loop of `Board.do_commands`: the first `drop` commits via
`place` and returns immediately; any other token is applied
unconditionally and then `check`ed, an illegal pose raising
`InvalidMoveError` (`Except.error`).  The exhausted-list case is Python's
implicit `return None`, unreachable because a `drop` is always appended.
The second component is the final pose of the mutated current block. -/
def Board.run_commands (bd : Board) : List Command → Option (Except Unit (Option Board) × Block)
  | [] => some (.ok none, bd.block)
  | .drop :: _ => bd.place.map fun pr => (.ok pr.1, pr.2.block)
  | c :: rest =>
    let blk := bd.block.do_command c
    if bd.check blk then Board.run_commands { bd with block := blk } rest
    else some (.error (), blk)

/-- `Board.do_commands`: reset the block to spawn pose, fail on an illegal
spawn, append `drop`, then run the token loop. -/
def Board.do_commands (bd : Board) (commands : List Command) :
    Option (Except Unit (Option Board) × Block) :=
  let blk := bd.block.reset_position
  if bd.check blk then Board.run_commands { bd with block := blk } (commands ++ [.drop])
  else some (.error (), blk)

/-- `Board.size`: `(len(bitmap), len(bitmap[0]))`. -/
def Board.size (bd : Board) : Nat × Nat :=
  (bd.bitmap.length, (bd.bitmap.headD []).length)

/-- Total grid read with Nat indices, `bitmap[row][col]`, used by the
heuristic features, whose loop bounds come from `size` and so stay in
range. -/
def cellNat (bm : List (List Nat)) (r c : Nat) : Nat :=
  (bm.getD r []).getD c 0

/-- `Board.num_holes`: scan rows top to bottom; a zero cell in a column
that has already seen a nonzero cell counts as a hole. -/
def Board.num_holes (bd : Board) : Nat :=
  let (rows, cols) := bd.size
  let step := fun (st : Nat × List Nat) (row : Nat) =>
    (List.range cols).foldl
      (fun (st : Nat × List Nat) col =>
        if cellNat bd.bitmap row col = 0 then
          if st.2.getD col 0 ≠ 0 then (st.1 + 1, st.2) else st
        else (st.1, st.2.set col (st.2.getD col 0 + 1)))
      st
  ((List.range rows).foldl step (0, List.replicate cols 0)).1

/-- `Board.col_height`: `rows - row` for the topmost nonzero cell of the
column, 0 for an empty column. -/
def Board.col_height (bd : Board) (col : Nat) : Nat :=
  let rows := bd.bitmap.length
  match (List.range rows).find? (fun row => cellNat bd.bitmap row col ≠ 0) with
  | some row => rows - row
  | none => 0

/-- `Board.max_height`: maximum column height. -/
def Board.max_height (bd : Board) : Nat :=
  let (_, cols) := bd.size
  (List.range cols).foldl (fun m col => max m (bd.col_height col)) 0

/-- `Board.height_variance`: sum of `|col_height(c) - prev|` with `prev`
initialised to `col_height 0` (so column 0 contributes 0). -/
def Board.height_variance (bd : Board) : Int :=
  let (_, cols) := bd.size
  ((List.range cols).foldl
    (fun (st : Int × Int) col =>
      let cur : Int := bd.col_height col
      (st.1 + (cur - st.2).natAbs, cur))
    (0, (bd.col_height 0 : Int))).1

/-- `Board.height_penalty`: sum of `rows - row` over nonzero cells
(computed by the program but excluded from the score). -/
def Board.height_penalty (bd : Board) : Nat :=
  let (rows, cols) := bd.size
  (List.range rows).foldl
    (fun pen row =>
      (List.range cols).foldl
        (fun pen col => if cellNat bd.bitmap row col ≠ 0 then pen + (rows - row) else pen)
        pen)
    0

/-- `Board.evaluate`: `-num_holes - max_height - height_variance`
(`height_penalty` is commented out in the source). -/
def Board.evaluate (bd : Board) : Int :=
  -(bd.num_holes : Int) - (bd.max_height : Int) - bd.height_variance

/-- Python dict assignment `choices[cur] = moves`: replace the entry in
place when the key exists, otherwise append it. -/
def dict_insert (m : List (Int × List Command)) (k : Int) (v : List Command) :
    List (Int × List Command) :=
  if m.any fun p => p.1 == k then m.map fun p => if p.1 == k then (k, v) else p
  else m ++ [(k, v)]

/-- Python dict read `m[k]`: the value of the (unique) entry with key `k`. -/
def dict_lookup (m : List (Int × List Command)) (k : Int) : Option (List Command) :=
  match m with
  | [] => none
  | (k', v) :: t => if k = k' then some v else dict_lookup t k

/-- The `while block.checked_left(board)` probing loop of the search,
fuel-indexed; returns the final block and the number of successful steps
(the number of `left` tokens appended).  `none` = fuel exhausted, shown
below to be impossible for a block with at least one offset. -/
def probe_left_loop : Nat → Board → Block → Option (Block × Nat)
  | 0, _, _ => none
  | fuel + 1, bd, blk =>
    match blk.checked_left bd with
    | (true, blk') => (probe_left_loop fuel bd blk').map fun p => (p.1, p.2 + 1)
    | (false, blk') => some (blk', 0)

/-- The `while block.checked_down(board)` probing loop of the search. -/
def probe_down_loop : Nat → Board → Block → Option (Block × Nat)
  | 0, _, _ => none
  | fuel + 1, bd, blk =>
    match blk.checked_down bd with
    | (true, blk') => (probe_down_loop fuel bd blk').map fun p => (p.1, p.2 + 1)
    | (false, blk') => some (blk', 0)

/-- How a planning run can die: `noneBoard` is the uncaught Python
`AttributeError` from `new_board.evaluate()` when `place` returned `None`
(empty preview queue); `emptyChoices` is the uncaught `ValueError` from
`max(choices)` when no candidate succeeded. -/
inductive SearchCrash where
  | noneBoard | emptyChoices
deriving DecidableEq, Repr

/-- The observable record of a search run: every candidate move list
handed to `do_commands` in order (`attempts`), the successful
`(score, move list)` pairs in order (`successes`), and the Python dict
`choices` built by `choices[cur] = moves`. -/
structure SearchAcc where
  attempts : List (List Command)
  successes : List (Int × List Command)
  choices : List (Int × List Command)
deriving DecidableEq, Repr

/-- One `try` body of the search: run `do_commands` on the shared block.
`none` = the commit loop hung; `.error` = `place` returned `None` and
`new_board.evaluate()` crashed; `.ok (blk, s?)` = the block ended at pose
`blk` and the candidate either raised `InvalidMoveError` (caught, `s? =
none`) or scored `s?`. -/
def try_candidate (bd : Board) (blk : Block) (moves : List Command) :
    Option (Except Unit (Block × Option Int)) :=
  match Board.do_commands { bd with block := blk } moves with
  | none => none
  | some (.error (), blkF) => some (.ok (blkF, none))
  | some (.ok none, _) => some (.error ())
  | some (.ok (some nb), blkF) => some (.ok (blkF, some nb.evaluate))

/-- The inner `for _ in xrange(0, 3)` loop: append one `rotate`, reset the
block, execute the accumulated move list, record a success in `choices`
(and in the `successes`/`attempts` trace). -/
def rot_loop (bd : Board) : Nat → List Command → Block → SearchAcc →
    Option (SearchAcc × Except SearchCrash Block)
  | 0, _, blk, acc => some (acc, .ok blk)
  | k + 1, moves, blk, acc =>
    let moves' := moves ++ [Command.rotate]
    let acc₁ := { acc with attempts := acc.attempts ++ [moves'] }
    match try_candidate bd blk moves' with
    | none => none
    | some (.error ()) => some (acc₁, .error .noneBoard)
    | some (.ok (blk', none)) => rot_loop bd k moves' blk' acc₁
    | some (.ok (blk', some score)) =>
      rot_loop bd k moves' blk'
        { acc₁ with
          successes := acc₁.successes ++ [(score, moves')],
          choices := dict_insert acc₁.choices score moves' }

/-- The outer `for i in range(0, 12)` loop: probe left, append `i` `right`
tokens (to the list only), probe down, then the three rotation variants.
The shared block's pose is threaded from one iteration to the next,
exactly as the single mutable `block` object is in Python. -/
def shift_loop (bd : Board) : List Nat → Block → SearchAcc →
    Option (SearchAcc × Except SearchCrash Block)
  | [], blk, acc => some (acc, .ok blk)
  | i :: rest, blk, acc =>
    match probe_left_loop 14 bd blk with
    | none => none
    | some (blk₁, a) =>
      match probe_down_loop 35 bd blk₁ with
      | none => none
      | some (blk₂, b) =>
        let moves := List.replicate a Command.left ++ List.replicate i Command.right ++
          List.replicate b Command.down
        match rot_loop bd 3 moves blk₂ acc with
        | none => none
        | some (acc', .error c) => some (acc', .error c)
        | some (acc', .ok blk₃) => shift_loop bd rest blk₃ acc'

/-- The `__main__` planning cycle: 12 shifts × 3 rotation variants, then
`todo = choices[max(choices)]`. -/
def search_main (bd : Board) : Option (SearchAcc × Except SearchCrash (List Command)) :=
  match shift_loop bd (List.range 12) bd.block ⟨[], [], []⟩ with
  | none => none
  | some (acc, .error c) => some (acc, .error c)
  | some (acc, .ok _) =>
    match (acc.choices.map Prod.fst).max? with
    | none => some (acc, .error .emptyChoices)
    | some k =>
      match dict_lookup acc.choices k with
      | some mv => some (acc, .ok mv)
      | none => some (acc, .error .emptyChoices)

/-! ## Basic algebra of the movement primitives -/

theorem Block.left_right (b : Block) : b.left.right = b := by
  cases b with
  | mk c o t r => cases t; simp [Block.left, Block.right]

theorem Block.right_left (b : Block) : b.right.left = b := by
  cases b with
  | mk c o t r => cases t; simp [Block.left, Block.right]

theorem Block.down_up (b : Block) : b.down.up = b := by
  cases b with
  | mk c o t r => cases t; simp [Block.down, Block.up]

theorem Block.up_down (b : Block) : b.up.down = b := by
  cases b with
  | mk c o t r => cases t; simp [Block.down, Block.up]

theorem Block.rotate_unrotate (b : Block) : b.rotate.unrotate = b := by
  cases b with
  | mk c o t r => simp [Block.rotate, Block.unrotate]

/-- The program's own test fixture `test_board` (its `None` block and
preview slots, which the heuristic features never read, become a trivial
block and an empty list). -/
def test_board : Board := ⟨[[1,1,1],[1,0,1],[1,1,1]], ⟨⟨0,0⟩, [], ⟨0,0⟩, 0⟩, []⟩

/-! ## C1: rotation does not cycle with period 4 -/

/-- C1, counterexample: for the single offset (1,0) at center (0,0) with no
translation, four applications of `rotate` from rotation 0 put the
occupied cell at (-3,0), not back at (1,0): the §4.1 encoding does not
cycle with period 4. -/
theorem rotate_four_counterexample :
    (Block.rotate (Block.rotate (Block.rotate (Block.rotate
        ⟨⟨0,0⟩, [⟨1,0⟩], ⟨0,0⟩, 0⟩)))).squares ≠
      (⟨⟨0,0⟩, [⟨1,0⟩], ⟨0,0⟩, 0⟩ : Block).squares := by
  decide

/-- C1, amended: applying `rotate` four times from rotation 0 lands in the
even branch with multiplier `1 - 4 = -3`, so each offset contributes the
cell `center + translation - 3·offset` — which coincides with the
rotation-0 cell `center + translation + offset` only for a (0,0) offset. -/
theorem rotate_four_amended (c t : Point) (offs : List Point) :
    (Block.rotate (Block.rotate (Block.rotate (Block.rotate
        ⟨c, offs, t, 0⟩)))).squares =
      offs.map fun o => ⟨c.i + t.i - 3 * o.i, c.j + t.j - 3 * o.j⟩ := by
  simp [Block.rotate, Block.squares]
  intro a _ha
  constructor <;> ring

/-! ## C5: checked probing moves -/

/-- C5: for each of the five checked moves, a reported success leaves the
block in a pose that `check` accepts, and a reported failure returns the
block to exactly its pose before the attempt. -/
theorem checked_moves_spec (bd : Board) (blk : Block) :
    (((blk.checked_left bd).1 = true → bd.check (blk.checked_left bd).2 = true) ∧
      ((blk.checked_left bd).1 = false → (blk.checked_left bd).2 = blk)) ∧
    (((blk.checked_right bd).1 = true → bd.check (blk.checked_right bd).2 = true) ∧
      ((blk.checked_right bd).1 = false → (blk.checked_right bd).2 = blk)) ∧
    (((blk.checked_down bd).1 = true → bd.check (blk.checked_down bd).2 = true) ∧
      ((blk.checked_down bd).1 = false → (blk.checked_down bd).2 = blk)) ∧
    (((blk.checked_up bd).1 = true → bd.check (blk.checked_up bd).2 = true) ∧
      ((blk.checked_up bd).1 = false → (blk.checked_up bd).2 = blk)) ∧
    (((blk.checked_rotate bd).1 = true → bd.check (blk.checked_rotate bd).2 = true) ∧
      ((blk.checked_rotate bd).1 = false → (blk.checked_rotate bd).2 = blk)) := by
  refine ⟨⟨?_, ?_⟩, ⟨?_, ?_⟩, ⟨?_, ?_⟩, ⟨?_, ?_⟩, ⟨?_, ?_⟩⟩ <;>
    · intro h
      by_cases hc : bd.check (blk.left) = true <;>
        by_cases hr : bd.check (blk.right) = true <;>
          by_cases hd : bd.check (blk.down) = true <;>
            by_cases hu : bd.check (blk.up) = true <;>
              by_cases ht : bd.check (blk.rotate) = true <;>
                simp_all [Block.checked_left, Block.checked_right, Block.checked_down,
                  Block.checked_up, Block.checked_rotate, Block.left_right, Block.right_left,
                  Block.down_up, Block.up_down, Block.rotate_unrotate]

/-- C5, witness: on an empty 33×12 board, a block whose single cell spawns
at (0,0): `checked_left` fails (reverted pose is unchanged) and
`checked_down` succeeds into a legal pose. -/
theorem checked_moves_spec_witness :
    ((Block.mk ⟨0,0⟩ [⟨0,0⟩] ⟨0,0⟩ 0).checked_left
        ⟨List.replicate 33 (List.replicate 12 0), ⟨⟨0,0⟩, [⟨0,0⟩], ⟨0,0⟩, 0⟩, []⟩).2 =
      ⟨⟨0,0⟩, [⟨0,0⟩], ⟨0,0⟩, 0⟩ ∧
    Board.check ⟨List.replicate 33 (List.replicate 12 0), ⟨⟨0,0⟩, [⟨0,0⟩], ⟨0,0⟩, 0⟩, []⟩
      ((Block.mk ⟨0,0⟩ [⟨0,0⟩] ⟨0,0⟩ 0).checked_down
        ⟨List.replicate 33 (List.replicate 12 0), ⟨⟨0,0⟩, [⟨0,0⟩], ⟨0,0⟩, 0⟩, []⟩).2 = true := by
  constructor
  · exact (checked_moves_spec _ _).1.2 (by decide)
  · exact (checked_moves_spec _ _).2.2.1.1 (by decide)

/-! ## C7: heuristic features on the program's test grid -/

/-- C7: on the 3×3 grid [[1,1,1],[1,0,1],[1,1,1]] the features evaluate to
`num_holes = 1`, `max_height = 3`, `height_variance = 0`. -/
theorem features_scenario1 :
    test_board.num_holes = 1 ∧ test_board.max_height = 3 ∧
      test_board.height_variance = 0 := by
  decide

/-! ## C4 / C8: row removal -/

/-- Python's `all(row)` on a row of cells: every cell is truthy. -/
def full_row (row : List Nat) : Bool := row.all fun x => x != 0

theorem remove_rows_eq (bm : List (List Nat)) :
    Board.remove_rows bm =
      List.replicate (bm.length - (bm.filter fun row => !full_row row).length)
          (List.replicate (bm.headD []).length 0) ++
        bm.filter fun row => !full_row row := rfl

theorem not_full_row_eq_any_zero (r : List Nat) :
    (!full_row r) = r.any fun x => x == 0 := by
  induction r with
  | nil => rfl
  | cons a t ih =>
    simp only [full_row, List.all_cons, List.any_cons, Bool.not_and, bne, Bool.not_not] at ih ⊢
    rw [ih]

theorem headD_mem {α : Type} {l : List α} (d : α) (h : l ≠ []) : l.headD d ∈ l := by
  cases l with
  | nil => exact absurd rfl h
  | cons a t => simp

theorem filter_replicate_eq {α : Type} (n : Nat) (a : α) (q : α → Bool) :
    (List.replicate n a).filter q = if q a then List.replicate n a else [] := by
  induction n with
  | zero => simp
  | succ n ih =>
    rw [List.replicate_succ, List.filter_cons, ih]
    by_cases h : q a <;> simp [h, List.replicate_succ]

/-- Grids in which no row is full are fixed points of `remove_rows`. -/
theorem remove_rows_fixed (l : List (List Nat)) (h : ∀ r ∈ l, full_row r = false) :
    Board.remove_rows l = l := by
  have hf : (l.filter fun row => !full_row row) = l :=
    List.filter_eq_self.mpr fun r hr => by simp [h r hr]
  rw [remove_rows_eq l, hf, Nat.sub_self]
  simp

/-- C4: on a non-empty rectangular grid, `remove_rows` keeps exactly the
rows containing a zero cell (in their original order), prepends that many
all-zero rows, and preserves the row and column counts. -/
theorem remove_rows_spec (bm : List (List Nat)) (cols : Nat)
    (hne : bm ≠ []) (hrect : ∀ r ∈ bm, r.length = cols) :
    Board.remove_rows bm =
      List.replicate (bm.length - (bm.filter fun r => r.any fun x => x == 0).length)
          (List.replicate cols 0) ++
        (bm.filter fun r => r.any fun x => x == 0) ∧
    (Board.remove_rows bm).length = bm.length ∧
    ∀ r ∈ Board.remove_rows bm, r.length = cols := by
  have hcols : (bm.headD []).length = cols := hrect _ (headD_mem [] hne)
  have hfilter : (bm.filter fun row => !full_row row) =
      bm.filter fun r => r.any fun x => x == 0 :=
    List.filter_congr fun r _ => not_full_row_eq_any_zero r
  have h1 : Board.remove_rows bm =
      List.replicate (bm.length - (bm.filter fun r => r.any fun x => x == 0).length)
          (List.replicate cols 0) ++
        (bm.filter fun r => r.any fun x => x == 0) := by
    rw [remove_rows_eq bm, hfilter, hcols]
  refine ⟨h1, ?_, ?_⟩
  · have hle : (bm.filter fun r => r.any fun x => x == 0).length ≤ bm.length :=
      List.length_filter_le _ _
    rw [h1]
    simp only [List.length_append, List.length_replicate]
    omega
  · intro r hr
    rw [h1] at hr
    rcases List.mem_append.1 hr with h | h
    · rw [List.eq_of_mem_replicate h]
      simp
    · exact hrect r (List.mem_of_mem_filter h)

/-- C4, witness: the 2×2 grid [[1,1],[0,1]] — the full top row is deleted,
a zero row is prepended, sizes are preserved. -/
theorem remove_rows_spec_witness :
    (Board.remove_rows [[1,1],[0,1]]).length = ([[1,1],[0,1]] : List (List Nat)).length :=
  (remove_rows_spec [[1,1],[0,1]] 2 (by decide) (by decide)).2.1

/-- C8: `remove_rows` is idempotent on every grid. -/
theorem remove_rows_idempotent (bm : List (List Nat)) :
    Board.remove_rows (Board.remove_rows bm) = Board.remove_rows bm := by
  have hkeep : ∀ r ∈ bm.filter fun row => !full_row row, full_row r = false := by
    intro r hr
    have := (List.mem_filter.1 hr).2
    simpa using this
  rcases hm : bm.length - (bm.filter fun row => !full_row row).length with _ | n
  · -- no row was deleted: the survivors are all non-full, a fixed point
    rw [remove_rows_eq bm, hm]
    simp only [List.replicate_zero, List.nil_append]
    exact remove_rows_fixed _ hkeep
  · rcases hc : (bm.headD []).length with _ | c
    · -- zero-width grid: the prepended rows are empty, hence "full" and
      -- deleted again, but the same number of empty rows is re-prepended
      rw [remove_rows_eq bm, hm, hc]
      simp only [List.replicate_zero]
      rw [remove_rows_eq]
      have hz : (List.replicate (n + 1) ([] : List Nat) ++
          bm.filter fun row => !full_row row).filter (fun row => !full_row row) =
          bm.filter fun row => !full_row row := by
        rw [List.filter_append, filter_replicate_eq]
        simp [full_row]
      have hhead : (List.replicate (n + 1) ([] : List Nat) ++
          bm.filter fun row => !full_row row).headD [] = ([] : List Nat) := by
        rw [List.replicate_succ]
        rfl
      rw [hz, hhead]
      simp only [List.length_append, List.length_replicate, List.length_nil,
        List.replicate_zero]
      congr 2
      omega
    · -- positive width: the prepended zero rows contain a zero, so no row
      -- of the output is full and the output is a fixed point
      rw [remove_rows_eq bm, hm, hc]
      apply remove_rows_fixed
      intro r hr
      rcases List.mem_append.1 hr with h | h
      · rw [List.eq_of_mem_replicate h]
        simp [full_row, List.replicate_succ]
      · exact hkeep r h

/-! ## C10: the legality check never indexes the grid out of range -/

theorem checkSquaresE_ok (bd : Board)
    (hr : bd.bitmap.length = 33) (hc : ∀ row ∈ bd.bitmap, row.length = 12) :
    ∀ l : List Point, bd.checkSquaresE l =
      .ok (l.all fun sq =>
        decide (0 ≤ sq.i) && decide (sq.i < Board.rows) &&
        decide (0 ≤ sq.j) && decide (sq.j < Board.cols) &&
        (cellRead bd.bitmap sq.i sq.j == some 0)) := by
  intro l
  induction l with
  | nil => rfl
  | cons sq rest ih =>
    rw [Board.checkSquaresE, List.all_cons]
    by_cases hb : sq.i < 0 ∨ Board.rows ≤ sq.i ∨ sq.j < 0 ∨ Board.cols ≤ sq.j
    · rw [if_pos hb]
      have hfalse : (decide (0 ≤ sq.i) && decide (sq.i < Board.rows) &&
          decide (0 ≤ sq.j) && decide (sq.j < Board.cols)) = false := by
        simp only [Board.rows, Board.cols] at hb
        rcases hb with h | h | h | h <;>
          simp [Board.rows, Board.cols, show ¬(0 ≤ sq.i) ∨ ¬(sq.i < 33) ∨
            ¬(0 ≤ sq.j) ∨ ¬(sq.j < (12:Int)) by omega] <;> omega
      rw [hfalse]
      simp
    · rw [if_neg hb]
      push_neg at hb
      obtain ⟨h1, h2, h3, h4⟩ := hb
      simp only [Board.rows, Board.cols] at h2 h4
      have hiN : sq.i.toNat < bd.bitmap.length := by omega
      have hrowq : bd.bitmap[sq.i.toNat]? = some bd.bitmap[sq.i.toNat] :=
        List.getElem?_eq_getElem hiN
      have hjN : sq.j.toNat < bd.bitmap[sq.i.toNat].length := by
        rw [hc _ (bd.bitmap.getElem_mem hiN)]
        omega
      have hcellq : bd.bitmap[sq.i.toNat][sq.j.toNat]? =
          some bd.bitmap[sq.i.toNat][sq.j.toNat] :=
        List.getElem?_eq_getElem hjN
      have hcell : cellRead bd.bitmap sq.i sq.j = some bd.bitmap[sq.i.toNat][sq.j.toNat] := by
        rw [cellRead, if_pos ⟨h1, h3⟩, hrowq]
        exact hcellq
      rw [hcell, ih]
      by_cases hv : bd.bitmap[sq.i.toNat][sq.j.toNat] = 0
      · simp [hv, h1, h3, Board.rows, Board.cols, h2, h4]
      · simp [hv]

/-- C10: on a 33-row × 12-column grid the legality check is total: for any
block pose whatsoever (any integer translation and rotation), every grid
access happens after the in-bounds tests succeed, so the
exception-explicit check never errors and returns exactly the boolean that
`check` computes. -/
theorem check_total_spec (bd : Board)
    (hwf : bd.bitmap.length = 33 ∧ ∀ row ∈ bd.bitmap, row.length = 12)
    (blk : Block) : bd.checkE blk = .ok (bd.check blk) := by
  rw [Board.checkE, Board.check]
  exact checkSquaresE_ok bd hwf.1 hwf.2 blk.squares

/-- C10, witness: on the empty 33×12 grid, the exception-explicit check of
a block translated far outside the grid (and with a negative rotation)
returns `ok false` rather than erroring. -/
theorem check_total_spec_witness :
    Board.checkE ⟨List.replicate 33 (List.replicate 12 0), ⟨⟨0,0⟩, [], ⟨0,0⟩, 0⟩, []⟩
      ⟨⟨0,0⟩, [⟨1,1⟩], ⟨-50, 700⟩, -7⟩ =
    .ok (Board.check ⟨List.replicate 33 (List.replicate 12 0), ⟨⟨0,0⟩, [], ⟨0,0⟩, 0⟩, []⟩
      ⟨⟨0,0⟩, [⟨1,1⟩], ⟨-50, 700⟩, -7⟩) :=
  check_total_spec _ (by constructor <;> decide) _

/-! ## Shape lemmas for squares and the movement primitives -/

theorem Block.offsets_left (b : Block) : b.left.offsets = b.offsets := rfl

theorem Block.offsets_right (b : Block) : b.right.offsets = b.offsets := rfl

theorem Block.offsets_up (b : Block) : b.up.offsets = b.offsets := rfl

theorem Block.offsets_down (b : Block) : b.down.offsets = b.offsets := rfl

theorem Block.offsets_rotate (b : Block) : b.rotate.offsets = b.offsets := rfl

theorem Block.offsets_unrotate (b : Block) : b.unrotate.offsets = b.offsets := rfl

theorem Block.offsets_reset (b : Block) : b.reset_position.offsets = b.offsets := rfl

theorem Block.offsets_do_command (b : Block) (c : Command) :
    (b.do_command c).offsets = b.offsets := by
  cases c <;> rfl

/-- Moving down shifts every occupied cell one row down. -/
theorem Block.squares_down (b : Block) :
    b.down.squares = b.squares.map fun s => ⟨s.i + 1, s.j⟩ := by
  rw [Block.squares, Block.squares]
  by_cases h : b.rotation % 2 ≠ 0 <;>
    · simp [Block.down, h, List.map_map, Function.comp]
      intro a _
      ring

/-- Moving left shifts every occupied cell one column left. -/
theorem Block.squares_left (b : Block) :
    b.left.squares = b.squares.map fun s => ⟨s.i, s.j - 1⟩ := by
  rw [Block.squares, Block.squares]
  by_cases h : b.rotation % 2 ≠ 0 <;>
    · simp [Block.left, h, List.map_map, Function.comp]
      intro a _
      ring

theorem squares_ne_nil {blk : Block} (h : blk.offsets ≠ []) : blk.squares ≠ [] := by
  rw [Block.squares]
  by_cases hr : blk.rotation % 2 ≠ 0 <;> simp [hr, h]

/-- A pose accepted by `check` has all its cells inside the 33×12 frame. -/
theorem check_bounds {bd : Board} {blk : Block} (h : bd.check blk = true) :
    ∀ sq ∈ blk.squares, 0 ≤ sq.i ∧ sq.i < 33 ∧ 0 ≤ sq.j ∧ sq.j < 12 := by
  intro sq hsq
  have hall := (List.all_eq_true.1 h) sq hsq
  simp only [Board.rows, Board.cols, Bool.and_eq_true, decide_eq_true_eq] at hall
  exact ⟨hall.1.1.1.1, hall.1.1.1.2, hall.1.1.2, hall.1.2⟩

/-! ## Termination of the hard-drop loop -/

theorem drop_loop_some_aux (bd : Board) :
    ∀ (fuel : Nat) (blk : Block) (sq : Point), sq ∈ blk.squares →
      (33 - sq.i).toNat < fuel → (drop_loop fuel bd blk).isSome = true := by
  intro fuel
  induction fuel with
  | zero => intro blk sq _ hlt; omega
  | succ n ih =>
    intro blk sq hsq hlt
    rw [drop_loop]
    by_cases hc : bd.check blk = true
    · rw [if_pos hc]
      have hb := check_bounds hc sq hsq
      have hsq' : (⟨sq.i + 1, sq.j⟩ : Point) ∈ blk.down.squares := by
        rw [Block.squares_down]
        exact List.mem_map_of_mem _ hsq
      exact ih blk.down ⟨sq.i + 1, sq.j⟩ hsq'
        (by show (33 - (sq.i + 1)).toNat < n; omega)
    · rw [if_neg hc]
      rfl

/-- The hard-drop loop of `place` exits within its fuel for every block
with at least one offset (an offset-less block passes `check` at every
depth: the Python loop would spin forever, and only then). -/
theorem drop_loop_total (bd : Board) (blk : Block) (h : blk.offsets ≠ []) :
    (drop_loop 34 bd blk).isSome = true := by
  by_cases hc : bd.check blk = true
  · obtain ⟨sq, hsq⟩ : ∃ sq, sq ∈ blk.squares := by
      cases hs : blk.squares with
      | nil => exact absurd hs (squares_ne_nil h)
      | cons a t => exact ⟨a, by simp [hs]⟩
    have hb := check_bounds hc sq hsq
    exact drop_loop_some_aux bd 34 blk sq hsq (by omega)
  · rw [drop_loop, if_neg hc]
    rfl

theorem drop_loop_offsets (bd : Board) :
    ∀ (fuel : Nat) (blk blk' : Block), drop_loop fuel bd blk = some blk' →
      blk'.offsets = blk.offsets := by
  intro fuel
  induction fuel with
  | zero => intro blk blk' h; simp [drop_loop] at h
  | succ n ih =>
    intro blk blk' h
    rw [drop_loop] at h
    by_cases hc : bd.check blk = true
    · rw [if_pos hc] at h
      exact ih blk.down blk' h
    · rw [if_neg hc] at h
      cases h
      rfl

/-! ## C2 / C9: commit -/

def empty_grid : List (List Nat) := List.replicate 33 (List.replicate 12 0)

/-- A one-cell block spawning at the top-left corner. -/
def unit_block : Block := ⟨⟨0,0⟩, [⟨0,0⟩], ⟨0,0⟩, 0⟩

/-- C2, counterexample: committing on an empty 33×12 board whose preview
queue is empty does not surface any error: `place` drops the block
(final translation (32,0)), prints its diagnostic, and returns the plain
value `None` — the placed bitmap is silently discarded. -/
theorem place_empty_preview_counterexample :
    Board.place ⟨empty_grid, unit_block, []⟩ =
      some (none, ⟨empty_grid, ⟨⟨0,0⟩, [⟨0,0⟩], ⟨32,0⟩, 0⟩, []⟩) := by
  rfl

/-- C2, amended: `place` on a board whose piece has at least one offset:
with an empty preview queue it returns the value `None` (no error is
raised); with a non-empty preview queue it returns a new `Board` whose
current block is the old preview head and whose preview queue is the tail,
exactly one piece shorter. -/
theorem place_amended (bd : Board) (hoff : bd.block.offsets ≠ []) :
    (bd.preview = [] → ∃ self, bd.place = some (none, self)) ∧
    (∀ p rest, bd.preview = p :: rest →
      ∃ nb self, bd.place = some (some nb, self) ∧ nb.block = p ∧ nb.preview = rest ∧
        nb.preview.length + 1 = bd.preview.length) := by
  obtain ⟨stopped, hstop⟩ := Option.isSome_iff_exists.1 (drop_loop_total bd bd.block hoff)
  constructor
  · intro hp
    refine ⟨{ bd with block := stopped.up }, ?_⟩
    rw [Board.place, hstop, hp]
  · intro p rest hp
    refine ⟨⟨Board.remove_rows ((stopped.up).squares.foldl
        (fun nb sq => cellWrite nb sq.i sq.j) bd.bitmap), p, rest⟩,
      { bd with block := stopped.up }, ?_, rfl, rfl, ?_⟩
    · rw [Board.place, hstop, hp]
    · rw [hp]
      rfl

/-- C2, witness: committing with a one-element preview queue returns a
board whose preview queue is empty. -/
theorem place_amended_witness :
    ∃ nb self, Board.place ⟨empty_grid, unit_block, [unit_block]⟩ = some (some nb, self) ∧
      nb.block = unit_block ∧ nb.preview = [] ∧ nb.preview.length + 1 = 1 := by
  obtain ⟨nb, self, h1, h2, h3, h4⟩ :=
    (place_amended ⟨empty_grid, unit_block, [unit_block]⟩ (by decide)).2 unit_block [] rfl
  exact ⟨nb, self, h1, h2, h3, h4⟩

/-- C9: for a board whose current piece (with at least one cell) is in a
legal pose and whose preview queue is non-empty, `place` returns a new
board built by merging the hard-dropped piece's cells into a copy of the
grid (then clearing rows), while the original board's own grid — carried
through as the mutated `self` — is bit-for-bit unchanged (as are its
preview queue and the block's shape data; only the block's pose moved). -/
theorem place_frame (bd : Board) (hoff : bd.block.offsets ≠ [])
    (_hlegal : bd.check bd.block = true) (hprev : bd.preview ≠ []) :
    ∃ nb self, bd.place = some (some nb, self) ∧
      self.bitmap = bd.bitmap ∧ self.preview = bd.preview ∧
      nb.bitmap = Board.remove_rows
        (self.block.squares.foldl (fun g sq => cellWrite g sq.i sq.j) bd.bitmap) := by
  obtain ⟨stopped, hstop⟩ := Option.isSome_iff_exists.1 (drop_loop_total bd bd.block hoff)
  obtain ⟨p, rest, hp⟩ : ∃ p rest, bd.preview = p :: rest := by
    cases hpv : bd.preview with
    | nil => exact absurd hpv hprev
    | cons p rest => exact ⟨p, rest, rfl⟩
  refine ⟨⟨Board.remove_rows ((stopped.up).squares.foldl
      (fun g sq => cellWrite g sq.i sq.j) bd.bitmap), p, rest⟩,
    { bd with block := stopped.up }, ?_, rfl, rfl, rfl⟩
  rw [Board.place, hstop, hp]

/-- C9, witness: the concrete commit of `place_amended_witness`, checked
for the frame conditions. -/
theorem place_frame_witness :
    ∃ nb self, Board.place ⟨empty_grid, unit_block, [unit_block]⟩ = some (some nb, self) ∧
      self.bitmap = empty_grid ∧ self.preview = [unit_block] := by
  obtain ⟨nb, self, h1, h2, h3, _⟩ :=
    place_frame ⟨empty_grid, unit_block, [unit_block]⟩ (by decide) (by decide) (by decide)
  exact ⟨nb, self, h1, h2, h3⟩

/-! ## C3: the move executor -/

/-- C3: `do_commands` (1) resets the piece to spawn pose and raises
`InvalidMoveError` if the spawn pose is illegal, committing nothing;
(2) otherwise runs the token list with a `drop` appended; in the token
loop, (3) the first `drop` makes the result independent of every later
token and (4) equal to the commit `place` produces from the current pose;
(5) any non-drop token is applied unconditionally, after which an illegal
pose raises `InvalidMoveError` (no board, partial or otherwise, in the
result) and a legal pose continues with the remaining tokens. -/
theorem do_commands_spec :
    (∀ (bd : Board) (cmds : List Command),
        bd.check bd.block.reset_position = false →
          bd.do_commands cmds = some (.error (), bd.block.reset_position)) ∧
    (∀ (bd : Board) (cmds : List Command),
        bd.check bd.block.reset_position = true →
          bd.do_commands cmds =
            Board.run_commands { bd with block := bd.block.reset_position }
              (cmds ++ [.drop])) ∧
    (∀ (bd : Board) (rest rest' : List Command),
        Board.run_commands bd (.drop :: rest) = Board.run_commands bd (.drop :: rest')) ∧
    (∀ (bd : Board) (rest : List Command),
        Board.run_commands bd (.drop :: rest) =
          bd.place.map fun pr => (.ok pr.1, pr.2.block)) ∧
    (∀ (bd : Board) (c : Command) (rest : List Command), c ≠ .drop →
        (bd.check (bd.block.do_command c) = false →
            Board.run_commands bd (c :: rest) = some (.error (), bd.block.do_command c)) ∧
        (bd.check (bd.block.do_command c) = true →
            Board.run_commands bd (c :: rest) =
              Board.run_commands { bd with block := bd.block.do_command c } rest)) := by
  refine ⟨?_, ?_, ?_, ?_, ?_⟩
  · intro bd cmds h
    simp [Board.do_commands, h]
  · intro bd cmds h
    simp [Board.do_commands, h]
  · intro bd rest rest'
    rfl
  · intro bd rest
    rfl
  · intro bd c rest hc
    constructor
    · intro h
      cases c <;> simp [Board.run_commands, h] at hc ⊢
    · intro h
      cases c <;> simp [Board.run_commands, h] at hc ⊢

/-- C3, witness: on a fully occupied grid the spawn pose is illegal and
the executor reports `InvalidMoveError` without a board. -/
theorem do_commands_spec_witness :
    Board.do_commands ⟨List.replicate 33 (List.replicate 12 1), unit_block, []⟩ [] =
      some (.error (), unit_block.reset_position) :=
  do_commands_spec.1 ⟨List.replicate 33 (List.replicate 12 1), unit_block, []⟩ [] (by decide)

/-! ## C6 infrastructure: the executor always returns on pieces with cells -/

theorem run_commands_cons_fail (bd : Board) (c : Command) (rest : List Command)
    (hc : c ≠ .drop) (h : bd.check (bd.block.do_command c) = false) :
    Board.run_commands bd (c :: rest) = some (.error (), bd.block.do_command c) := by
  cases c <;>
    first
    | exact absurd rfl hc
    | (simp only [Block.do_command] at h
       simp [Board.run_commands, Block.do_command, h])

theorem run_commands_cons_step (bd : Board) (c : Command) (rest : List Command)
    (hc : c ≠ .drop) (h : bd.check (bd.block.do_command c) = true) :
    Board.run_commands bd (c :: rest) =
      Board.run_commands { bd with block := bd.block.do_command c } rest := by
  cases c <;>
    first
    | exact absurd rfl hc
    | (simp only [Block.do_command] at h
       simp [Board.run_commands, Block.do_command, h])

theorem place_eval (bd : Board) (stopped : Block)
    (hstop : drop_loop 34 bd bd.block = some stopped) :
    bd.place = match bd.preview with
      | [] => some (none, { bd with block := stopped.up })
      | p :: rest =>
        some (some ⟨Board.remove_rows ((stopped.up).squares.foldl
            (fun nb sq => cellWrite nb sq.i sq.j) bd.bitmap), p, rest⟩,
          { bd with block := stopped.up }) := by
  rw [Board.place, hstop]

/-- `place` only returns the Python value `None` when the preview queue is
empty. -/
theorem place_some_none (bd : Board) (self : Board) (h : bd.place = some (none, self)) :
    bd.preview = [] := by
  rw [Board.place] at h
  cases hd : drop_loop 34 bd bd.block with
  | none => rw [hd] at h; simp at h
  | some stopped =>
    rw [hd] at h
    cases hp : bd.preview with
    | nil => rfl
    | cons p rest => rw [hp] at h; simp at h

theorem run_commands_total :
    ∀ (cmds : List Command) (bd : Board), bd.block.offsets ≠ [] →
      ∃ r blkF, Board.run_commands bd cmds = some (r, blkF) ∧
        blkF.offsets = bd.block.offsets := by
  intro cmds
  induction cmds with
  | nil => intro bd _; exact ⟨.ok none, bd.block, rfl, rfl⟩
  | cons c rest ih =>
    intro bd hoff
    by_cases hc : c = .drop
    · subst hc
      obtain ⟨stopped, hstop⟩ := Option.isSome_iff_exists.1 (drop_loop_total bd bd.block hoff)
      have hoffstop : stopped.offsets = bd.block.offsets :=
        drop_loop_offsets bd 34 bd.block stopped hstop
      have hrun : Board.run_commands bd (.drop :: rest) =
          bd.place.map fun pr => (.ok pr.1, pr.2.block) := rfl
      cases hp : bd.preview with
      | nil =>
        refine ⟨.ok none, stopped.up, ?_, hoffstop⟩
        rw [hrun, place_eval bd stopped hstop, hp]
        rfl
      | cons p rest' =>
        refine ⟨.ok (some ⟨Board.remove_rows ((stopped.up).squares.foldl
            (fun nb sq => cellWrite nb sq.i sq.j) bd.bitmap), p, rest'⟩),
          stopped.up, ?_, hoffstop⟩
        rw [hrun, place_eval bd stopped hstop, hp]
        rfl
    · by_cases hchk : bd.check (bd.block.do_command c) = true
      · obtain ⟨r, blkF, h1, h2⟩ := ih { bd with block := bd.block.do_command c }
          (by rw [Block.offsets_do_command]; exact hoff)
        refine ⟨r, blkF, ?_, ?_⟩
        · rw [run_commands_cons_step bd c rest hc hchk, h1]
        · rw [h2]
          exact Block.offsets_do_command bd.block c
      · exact ⟨.error (), bd.block.do_command c,
          run_commands_cons_fail bd c rest hc (by simpa using hchk),
          Block.offsets_do_command bd.block c⟩

theorem run_commands_ok_not_none :
    ∀ (cmds : List Command) (bd : Board), Command.drop ∈ cmds → bd.preview ≠ [] →
      ∀ blkF, Board.run_commands bd cmds ≠ some (.ok none, blkF) := by
  intro cmds
  induction cmds with
  | nil => intro bd hmem; simp at hmem
  | cons c rest ih =>
    intro bd hmem hprev blkF
    by_cases hc : c = .drop
    · subst hc
      intro h
      have hrun : Board.run_commands bd (.drop :: rest) =
          bd.place.map fun pr => (.ok pr.1, pr.2.block) := rfl
      rw [hrun] at h
      cases hpl : bd.place with
      | none => rw [hpl] at h; simp at h
      | some pr =>
        rw [hpl] at h
        simp at h
        have : bd.preview = [] := by
          apply place_some_none bd pr.2
          rw [hpl, ← h.1]
        exact hprev this
    · have hmem' : Command.drop ∈ rest := by
        rcases List.mem_cons.1 hmem with h | h
        · exact absurd h.symm hc
        · exact h
      by_cases hchk : bd.check (bd.block.do_command c) = true
      · rw [run_commands_cons_step bd c rest hc hchk]
        exact ih { bd with block := bd.block.do_command c } hmem' hprev blkF
      · rw [run_commands_cons_fail bd c rest hc (by simpa using hchk)]
        simp

theorem do_commands_total (bd : Board) (cmds : List Command)
    (hoff : bd.block.offsets ≠ []) :
    ∃ r blkF, bd.do_commands cmds = some (r, blkF) ∧
      blkF.offsets = bd.block.offsets := by
  by_cases h : bd.check bd.block.reset_position = true
  · obtain ⟨r, blkF, h1, h2⟩ := run_commands_total (cmds ++ [.drop])
      { bd with block := bd.block.reset_position } (by rw [Block.offsets_reset]; exact hoff)
    refine ⟨r, blkF, ?_, ?_⟩
    · simp only [Board.do_commands, h, if_true]
      exact h1
    · rw [h2]
      exact Block.offsets_reset bd.block
  · exact ⟨.error (), bd.block.reset_position, by simp [Board.do_commands, h],
      Block.offsets_reset bd.block⟩

theorem do_commands_not_none (bd : Board) (cmds : List Command) (blkF : Block)
    (hprev : bd.preview ≠ []) : bd.do_commands cmds ≠ some (.ok none, blkF) := by
  by_cases h : bd.check bd.block.reset_position = true
  · simp only [Board.do_commands, h, if_true]
    exact run_commands_ok_not_none (cmds ++ [.drop])
      { bd with block := bd.block.reset_position } (by simp) hprev blkF
  · simp [Board.do_commands, h]

/-! ## Termination of the probing loops -/

theorem checked_left_cases (blk : Block) (bd : Board) :
    (bd.check blk.left = true ∧ blk.checked_left bd = (true, blk.left)) ∨
    (bd.check blk.left = false ∧ blk.checked_left bd = (false, blk)) := by
  by_cases h : bd.check blk.left = true
  · exact .inl ⟨h, by rw [Block.checked_left]; simp [h]⟩
  · refine .inr ⟨by simpa using h, ?_⟩
    rw [Block.checked_left]
    simp [h, Block.left_right]

theorem checked_down_cases (blk : Block) (bd : Board) :
    (bd.check blk.down = true ∧ blk.checked_down bd = (true, blk.down)) ∨
    (bd.check blk.down = false ∧ blk.checked_down bd = (false, blk)) := by
  by_cases h : bd.check blk.down = true
  · exact .inl ⟨h, by rw [Block.checked_down]; simp [h]⟩
  · refine .inr ⟨by simpa using h, ?_⟩
    rw [Block.checked_down]
    simp [h, Block.down_up]

theorem probe_left_aux (bd : Board) :
    ∀ (fuel : Nat) (blk : Block) (sq : Point), sq ∈ blk.squares →
      bd.check blk = true → sq.j.toNat < fuel →
      (probe_left_loop fuel bd blk).isSome = true := by
  intro fuel
  induction fuel with
  | zero => intro blk sq _ _ hlt; omega
  | succ n ih =>
    intro blk sq hsq hchk hlt
    rw [probe_left_loop]
    rcases checked_left_cases blk bd with ⟨hc, he⟩ | ⟨hc, he⟩
    · rw [he]
      have hsq' : (⟨sq.i, sq.j - 1⟩ : Point) ∈ blk.left.squares := by
        rw [Block.squares_left]
        exact List.mem_map_of_mem _ hsq
      have hbnd : 0 ≤ sq.i ∧ sq.i < 33 ∧ 0 ≤ sq.j - 1 ∧ sq.j - 1 < 12 := by
        simpa using check_bounds hc _ hsq'
      have hrec := ih blk.left ⟨sq.i, sq.j - 1⟩ hsq' hc
        (by show (sq.j - 1).toNat < n; omega)
      show ((probe_left_loop n bd blk.left).map fun p => (p.1, p.2 + 1)).isSome = true
      obtain ⟨p, hp⟩ := Option.isSome_iff_exists.1 hrec
      rw [hp]
      rfl
    · rw [he]
      rfl

theorem probe_left_total (bd : Board) (blk : Block) (hoff : blk.offsets ≠ []) :
    (probe_left_loop 14 bd blk).isSome = true := by
  rw [probe_left_loop]
  rcases checked_left_cases blk bd with ⟨hc, he⟩ | ⟨hc, he⟩
  · rw [he]
    obtain ⟨sq, hsq⟩ : ∃ sq, sq ∈ blk.left.squares := by
      cases hs : blk.left.squares with
      | nil => exact absurd hs (squares_ne_nil (by rw [Block.offsets_left]; exact hoff))
      | cons a t => exact ⟨a, by simp [hs]⟩
    have hbnd := check_bounds hc _ hsq
    have hrec := probe_left_aux bd 13 blk.left sq hsq hc (by omega)
    show ((probe_left_loop 13 bd blk.left).map fun p => (p.1, p.2 + 1)).isSome = true
    obtain ⟨p, hp⟩ := Option.isSome_iff_exists.1 hrec
    rw [hp]
    rfl
  · rw [he]
    rfl

theorem probe_down_aux (bd : Board) :
    ∀ (fuel : Nat) (blk : Block) (sq : Point), sq ∈ blk.squares →
      bd.check blk = true → (32 - sq.i).toNat < fuel →
      (probe_down_loop fuel bd blk).isSome = true := by
  intro fuel
  induction fuel with
  | zero => intro blk sq _ _ hlt; omega
  | succ n ih =>
    intro blk sq hsq hchk hlt
    rw [probe_down_loop]
    rcases checked_down_cases blk bd with ⟨hc, he⟩ | ⟨hc, he⟩
    · rw [he]
      have hsq' : (⟨sq.i + 1, sq.j⟩ : Point) ∈ blk.down.squares := by
        rw [Block.squares_down]
        exact List.mem_map_of_mem _ hsq
      have hbnd : 0 ≤ sq.i + 1 ∧ sq.i + 1 < 33 ∧ 0 ≤ sq.j ∧ sq.j < 12 := by
        simpa using check_bounds hc _ hsq'
      have hrec := ih blk.down ⟨sq.i + 1, sq.j⟩ hsq' hc
        (by show (32 - (sq.i + 1)).toNat < n; omega)
      show ((probe_down_loop n bd blk.down).map fun p => (p.1, p.2 + 1)).isSome = true
      obtain ⟨p, hp⟩ := Option.isSome_iff_exists.1 hrec
      rw [hp]
      rfl
    · rw [he]
      rfl

theorem probe_down_total (bd : Board) (blk : Block) (hoff : blk.offsets ≠ []) :
    (probe_down_loop 35 bd blk).isSome = true := by
  rw [probe_down_loop]
  rcases checked_down_cases blk bd with ⟨hc, he⟩ | ⟨hc, he⟩
  · rw [he]
    obtain ⟨sq, hsq⟩ : ∃ sq, sq ∈ blk.down.squares := by
      cases hs : blk.down.squares with
      | nil => exact absurd hs (squares_ne_nil (by rw [Block.offsets_down]; exact hoff))
      | cons a t => exact ⟨a, by simp [hs]⟩
    have hbnd := check_bounds hc _ hsq
    have hrec := probe_down_aux bd 34 blk.down sq hsq hc (by omega)
    show ((probe_down_loop 34 bd blk.down).map fun p => (p.1, p.2 + 1)).isSome = true
    obtain ⟨p, hp⟩ := Option.isSome_iff_exists.1 hrec
    rw [hp]
    rfl
  · rw [he]
    rfl

theorem probe_left_offsets (bd : Board) :
    ∀ (fuel : Nat) (blk blk' : Block) (n : Nat),
      probe_left_loop fuel bd blk = some (blk', n) → blk'.offsets = blk.offsets := by
  intro fuel
  induction fuel with
  | zero => intro blk blk' n h; simp [probe_left_loop] at h
  | succ m ih =>
    intro blk blk' n h
    rw [probe_left_loop] at h
    rcases checked_left_cases blk bd with ⟨hc, he⟩ | ⟨hc, he⟩
    · rw [he] at h
      replace h : (probe_left_loop m bd blk.left).map (fun p => (p.1, p.2 + 1)) =
        some (blk', n) := h
      cases hq : probe_left_loop m bd blk.left with
      | none =>
        rw [hq] at h
        simp at h
      | some p =>
        rw [hq] at h
        simp at h
        have hoffp := ih blk.left p.1 p.2 (by rw [hq])
        rw [← h.1, hoffp]
        exact Block.offsets_left blk
    · rw [he] at h
      replace h : some (blk, (0 : Nat)) = some (blk', n) := h
      simp at h
      rw [← h.1]

theorem probe_down_offsets (bd : Board) :
    ∀ (fuel : Nat) (blk blk' : Block) (n : Nat),
      probe_down_loop fuel bd blk = some (blk', n) → blk'.offsets = blk.offsets := by
  intro fuel
  induction fuel with
  | zero => intro blk blk' n h; simp [probe_down_loop] at h
  | succ m ih =>
    intro blk blk' n h
    rw [probe_down_loop] at h
    rcases checked_down_cases blk bd with ⟨hc, he⟩ | ⟨hc, he⟩
    · rw [he] at h
      replace h : (probe_down_loop m bd blk.down).map (fun p => (p.1, p.2 + 1)) =
        some (blk', n) := h
      cases hq : probe_down_loop m bd blk.down with
      | none =>
        rw [hq] at h
        simp at h
      | some p =>
        rw [hq] at h
        simp at h
        have hoffp := ih blk.down p.1 p.2 (by rw [hq])
        rw [← h.1, hoffp]
        exact Block.offsets_down blk
    · rw [he] at h
      replace h : some (blk, (0 : Nat)) = some (blk', n) := h
      simp at h
      rw [← h.1]

/-- Every candidate attempt on a board with a non-empty preview queue
returns normally: either the caught `InvalidMoveError` (nothing recorded)
or a genuine resulting board with its score. -/
theorem try_candidate_ok (bd : Board) (hprev : bd.preview ≠ []) (blk : Block)
    (moves : List Command) (hoff : blk.offsets ≠ []) :
    ∃ blkF s?, try_candidate bd blk moves = some (.ok (blkF, s?)) ∧
      blkF.offsets = blk.offsets := by
  obtain ⟨r, blkF, hdo, hoffF⟩ :=
    do_commands_total { bd with block := blk } moves hoff
  cases r with
  | error e =>
    cases e
    exact ⟨blkF, none, by rw [try_candidate, hdo], hoffF⟩
  | ok ob =>
    cases ob with
    | none =>
      exact absurd hdo (do_commands_not_none { bd with block := blk } moves blkF hprev)
    | some nb =>
      exact ⟨blkF, some nb.evaluate, by rw [try_candidate, hdo], hoffF⟩

/-! ## Python dict semantics of the score-keyed candidate map -/

theorem dict_insert_fun_eq (k : Int) (v : List Command) :
    (fun p : Int × List Command => if p.1 == k then (k, v) else p) =
      fun p => if p.1 = k then (k, v) else p := by
  funext p
  simp [beq_iff_eq]

theorem dict_lookup_map_replace (t : List (Int × List Command)) (k : Int)
    (v : List Command) (s : Int) (hs : s ≠ k) :
    dict_lookup (t.map fun p => if p.1 == k then (k, v) else p) s = dict_lookup t s := by
  rw [dict_insert_fun_eq]
  induction t with
  | nil => rfl
  | cons x t ih =>
    rcases x with ⟨k', w⟩
    rw [List.map_cons]
    by_cases hx : k' = k
    · rw [if_pos hx, dict_lookup, dict_lookup, if_neg hs,
        if_neg (fun he => hs (he.trans hx))]
      exact ih
    · rw [if_neg hx, dict_lookup, dict_lookup]
      by_cases hsx : s = k' <;> simp [hsx, ih]

theorem dict_lookup_map_replace_hit (t : List (Int × List Command)) (k : Int)
    (v : List Command) (hany : (t.any fun p => p.1 == k) = true) :
    dict_lookup (t.map fun p => if p.1 == k then (k, v) else p) k = some v := by
  rw [dict_insert_fun_eq]
  induction t with
  | nil => simp at hany
  | cons x t ih =>
    rcases x with ⟨k', w⟩
    rw [List.map_cons]
    by_cases hx : k' = k
    · rw [if_pos hx, dict_lookup, if_pos rfl]
    · rw [if_neg hx, dict_lookup, if_neg (fun he => hx he.symm)]
      simp only [List.any_cons, Bool.or_eq_true, beq_iff_eq] at hany
      rcases hany with h | h
      · exact absurd h hx
      · exact ih h

theorem dict_lookup_append_single (m : List (Int × List Command)) (k : Int)
    (v : List Command) (s : Int) :
    dict_lookup (m ++ [(k, v)]) s = match dict_lookup m s with
      | some w => some w
      | none => if s = k then some v else none := by
  induction m with
  | nil => rfl
  | cons x t ih =>
    rcases x with ⟨k', w⟩
    rw [List.cons_append, dict_lookup, dict_lookup]
    by_cases hs : s = k' <;> simp [hs, ih]

theorem dict_lookup_none_of_not_any (m : List (Int × List Command)) (k : Int)
    (h : (m.any fun p => p.1 == k) = false) : dict_lookup m k = none := by
  induction m with
  | nil => rfl
  | cons x t ih =>
    rcases x with ⟨k', w⟩
    rw [List.any_cons] at h
    obtain ⟨h1, h2⟩ := Bool.or_eq_false_iff.1 h
    have hk : k ≠ k' := by
      intro he
      subst he
      simp at h1
    rw [dict_lookup, if_neg hk]
    exact ih h2

/-- Python dict assignment: lookup after `m[k] = v` returns `v` at `k` and
is unchanged elsewhere. -/
theorem dict_insert_lookup (m : List (Int × List Command)) (k : Int) (v : List Command)
    (s : Int) :
    dict_lookup (dict_insert m k v) s = if s = k then some v else dict_lookup m s := by
  rw [dict_insert]
  by_cases hany : (m.any fun p => p.1 == k) = true
  · rw [if_pos hany]
    by_cases hs : s = k
    · subst hs
      rw [if_pos rfl]
      exact dict_lookup_map_replace_hit m s v hany
    · rw [if_neg hs]
      exact dict_lookup_map_replace m k v s hs
  · rw [if_neg hany]
    rw [dict_lookup_append_single]
    have hnone := dict_lookup_none_of_not_any m k
      (by simp only [Bool.not_eq_true] at hany; exact hany)
    by_cases hs : s = k
    · subst hs
      rw [hnone]
    · cases hl : dict_lookup m s with
      | none => simp [hs]
      | some w => simp [hs]

/-- Folding dict inserts over a run of `(score, moves)` records: the final
lookup at `s` is the value of the last record with score `s` (last write
wins), falling back to the initial map. -/
theorem dict_lookup_foldl :
    ∀ (l : List (Int × List Command)) (m : List (Int × List Command)) (s : Int),
      dict_lookup (l.foldl (fun m sv => dict_insert m sv.1 sv.2) m) s =
        l.foldl (fun r sv => if sv.1 = s then some sv.2 else r) (dict_lookup m s) := by
  intro l
  induction l with
  | nil => intro m s; rfl
  | cons x t ih =>
    intro m s
    rw [List.foldl_cons, List.foldl_cons, ih, dict_insert_lookup]
    congr 1
    by_cases hs : s = x.1
    · rw [if_pos hs, if_pos hs.symm]
    · rw [if_neg hs, if_neg (fun he => hs he.symm)]

theorem last_written_mem :
    ∀ (l : List (Int × List Command)) (d : Option (List Command)) (s : Int)
      (mv : List Command),
      l.foldl (fun r sv => if sv.1 = s then some sv.2 else r) d = some mv →
      (∃ sv, sv ∈ l ∧ sv.2 = mv) ∨ d = some mv := by
  intro l
  induction l with
  | nil => intro d s mv h; exact .inr h
  | cons x t ih =>
    intro d s mv h
    rw [List.foldl_cons] at h
    rcases ih _ s mv h with ⟨sv, hmem, hv⟩ | hd
    · exact .inl ⟨sv, List.mem_cons_of_mem _ hmem, hv⟩
    · by_cases hx : x.1 = s
      · rw [if_pos hx] at hd
        exact .inl ⟨x, List.mem_cons_self _ _, Option.some.inj hd⟩
      · rw [if_neg hx] at hd
        exact .inr hd

/-! ## C6: the placement search -/

/-- Invariant carried through the probe rounds: `choices` is exactly the
dict obtained by replaying the chronological success records, and no
recorded move list contains a `drop` token. -/
def SearchInv (acc : SearchAcc) : Prop :=
  acc.choices = acc.successes.foldl (fun m sv => dict_insert m sv.1 sv.2) [] ∧
  (∀ mv ∈ acc.attempts, Command.drop ∉ mv) ∧
  (∀ sv ∈ acc.successes, Command.drop ∉ sv.2)

theorem rot_loop_ok (bd : Board) (hprev : bd.preview ≠ []) :
    ∀ (k : Nat) (moves : List Command) (blk : Block) (acc : SearchAcc),
      blk.offsets ≠ [] → Command.drop ∉ moves → SearchInv acc →
      ∃ acc' blk', rot_loop bd k moves blk acc = some (acc', .ok blk') ∧
        SearchInv acc' ∧ acc'.attempts.length = acc.attempts.length + k ∧
        blk'.offsets = blk.offsets := by
  intro k
  induction k with
  | zero =>
    intro moves blk acc _ _ hInv
    exact ⟨acc, blk, rfl, hInv, by simp, rfl⟩
  | succ n ih =>
    intro moves blk acc hoff hm hInv
    obtain ⟨blkF, s?, htry, hoffF⟩ :=
      try_candidate_ok bd hprev blk (moves ++ [Command.rotate]) hoff
    have hm' : Command.drop ∉ moves ++ [Command.rotate] := by
      intro hmem
      rcases List.mem_append.1 hmem with h | h
      · exact hm h
      · simp at h
    obtain ⟨hc, ha, hs⟩ := hInv
    cases s? with
    | none =>
      obtain ⟨acc', blk', h1, h2, h3, h4⟩ := ih (moves ++ [Command.rotate]) blkF
        { acc with attempts := acc.attempts ++ [moves ++ [Command.rotate]] }
        (by rw [hoffF]; exact hoff) hm'
        (by
          refine ⟨hc, ?_, hs⟩
          intro mv hmv
          rcases List.mem_append.1 hmv with h | h
          · exact ha mv h
          · rw [List.mem_singleton] at h
            subst h
            exact hm')
      refine ⟨acc', blk', ?_, h2, ?_, by rw [h4, hoffF]⟩
      · simp only [rot_loop]
        rw [htry]
        exact h1
      · simp only [SearchAcc.mk.injEq] at h3 ⊢
        simp at h3
        omega
    | some score =>
      obtain ⟨acc', blk', h1, h2, h3, h4⟩ := ih (moves ++ [Command.rotate]) blkF
        ⟨acc.attempts ++ [moves ++ [Command.rotate]],
          acc.successes ++ [(score, moves ++ [Command.rotate])],
          dict_insert acc.choices score (moves ++ [Command.rotate])⟩
        (by rw [hoffF]; exact hoff) hm'
        (by
          refine ⟨?_, ?_, ?_⟩
          · show dict_insert acc.choices score (moves ++ [Command.rotate]) = _
            rw [List.foldl_append, ← hc]
            rfl
          · intro mv hmv
            rcases List.mem_append.1 hmv with h | h
            · exact ha mv h
            · rw [List.mem_singleton] at h
              subst h
              exact hm'
          · intro sv hsv
            rcases List.mem_append.1 hsv with h | h
            · exact hs sv h
            · rw [List.mem_singleton] at h
              subst h
              exact hm')
      refine ⟨acc', blk', ?_, h2, ?_, by rw [h4, hoffF]⟩
      · simp only [rot_loop]
        rw [htry]
        exact h1
      · simp at h3
        omega

theorem shift_loop_ok (bd : Board) (hprev : bd.preview ≠ []) :
    ∀ (shifts : List Nat) (blk : Block) (acc : SearchAcc),
      blk.offsets ≠ [] → SearchInv acc →
      ∃ acc' blk', shift_loop bd shifts blk acc = some (acc', .ok blk') ∧ SearchInv acc' ∧
        acc'.attempts.length = acc.attempts.length + 3 * shifts.length ∧
        blk'.offsets = blk.offsets := by
  intro shifts
  induction shifts with
  | nil =>
    intro blk acc _ hInv
    exact ⟨acc, blk, rfl, hInv, by simp, rfl⟩
  | cons i rest ih =>
    intro blk acc hoff hInv
    obtain ⟨⟨blk₁, a⟩, hpl⟩ := Option.isSome_iff_exists.1 (probe_left_total bd blk hoff)
    have hoff₁ : blk₁.offsets = blk.offsets := probe_left_offsets bd 14 blk blk₁ a hpl
    obtain ⟨⟨blk₂, b⟩, hpd⟩ := Option.isSome_iff_exists.1
      (probe_down_total bd blk₁ (by rw [hoff₁]; exact hoff))
    have hoff₂ : blk₂.offsets = blk₁.offsets := probe_down_offsets bd 35 blk₁ blk₂ b hpd
    have hmoves : Command.drop ∉ List.replicate a Command.left ++
        List.replicate i Command.right ++ List.replicate b Command.down := by
      intro hmem
      rcases List.mem_append.1 hmem with h | h
      · rcases List.mem_append.1 h with h' | h'
        · exact absurd (List.eq_of_mem_replicate h') (by simp)
        · exact absurd (List.eq_of_mem_replicate h') (by simp)
      · exact absurd (List.eq_of_mem_replicate h) (by simp)
    obtain ⟨acc₁, blk₃, hrot, hInv₁, hlen₁, hoff₃⟩ := rot_loop_ok bd hprev 3
      (List.replicate a Command.left ++ List.replicate i Command.right ++
        List.replicate b Command.down)
      blk₂ acc (by rw [hoff₂, hoff₁]; exact hoff) hmoves hInv
    obtain ⟨acc', blk', hrest, hInv', hlen', hoff'⟩ := ih blk₃ acc₁
      (by rw [hoff₃, hoff₂, hoff₁]; exact hoff) hInv₁
    refine ⟨acc', blk', ?_, hInv', ?_, by rw [hoff', hoff₃, hoff₂, hoff₁]⟩
    · simp only [shift_loop, hpl, hpd, hrot]
      exact hrest
    · rw [hlen', hlen₁]
      simp [List.length_cons]
      ring

/-- C6, amended: on every game state whose current piece has at least one
offset and whose preview queue is non-empty, the search completes: it
attempts exactly 12 × 3 = 36 candidate move lists, none of which contains
a `drop` token; the score-keyed dict records successes with last-write-wins
overwriting on equal scores (its lookup at any score is the value of the
chronologically last success with that score); and whenever a move list is
emitted it is exactly the dict entry at the maximum recorded score, and is
drop-free.  (With an empty preview queue the search instead crashes at its
first successful candidate — see the counterexample.) -/
theorem search_amended (bd : Board) (hoff : bd.block.offsets ≠ []) (hprev : bd.preview ≠ []) :
    ∃ acc res, search_main bd = some (acc, res) ∧
      acc.attempts.length = 36 ∧
      (∀ mv ∈ acc.attempts, Command.drop ∉ mv) ∧
      (∀ s : Int, dict_lookup acc.choices s =
        acc.successes.foldl (fun r sv => if sv.1 = s then some sv.2 else r) none) ∧
      (∀ mv, res = .ok mv →
        ∃ smax, (acc.choices.map Prod.fst).max? = some smax ∧
          dict_lookup acc.choices smax = some mv ∧ Command.drop ∉ mv) := by
  obtain ⟨acc, blkE, hrun, hInv, hlen, _⟩ := shift_loop_ok bd hprev (List.range 12) bd.block
    ⟨[], [], []⟩ hoff ⟨rfl, by simp, by simp⟩
  have hlen36 : acc.attempts.length = 36 := by simpa using hlen
  have hlookup : ∀ s : Int, dict_lookup acc.choices s =
      acc.successes.foldl (fun r sv => if sv.1 = s then some sv.2 else r) none := by
    intro s
    rw [hInv.1, dict_lookup_foldl]
    rfl
  cases hmax : (acc.choices.map Prod.fst).max? with
  | none =>
    refine ⟨acc, .error .emptyChoices, ?_, hlen36, hInv.2.1, hlookup, ?_⟩
    · simp only [search_main, hrun, hmax]
    · intro mv h
      simp at h
  | some k =>
    cases hlk : dict_lookup acc.choices k with
    | none =>
      refine ⟨acc, .error .emptyChoices, ?_, hlen36, hInv.2.1, hlookup, ?_⟩
      · simp only [search_main, hrun, hmax, hlk]
      · intro mv h
        simp at h
    | some mv0 =>
      refine ⟨acc, .ok mv0, ?_, hlen36, hInv.2.1, hlookup, ?_⟩
      · simp only [search_main, hrun, hmax, hlk]
      · intro mv h
        injection h with h'
        subst h'
        refine ⟨k, hmax, hlk, ?_⟩
        have hl := hlookup k
        rw [hlk] at hl
        rcases last_written_mem acc.successes none k mv0 hl.symm with ⟨sv, hmem, hv⟩ | hd
        · exact hv ▸ hInv.2.2 sv hmem
        · simp at hd

/-- C6, counterexample: on the empty 33×12 board with a one-cell piece and
an *empty* preview queue, the very first candidate (32 `down` probes, one
`rotate`) executes successfully, `place` returns `None`, and
`new_board.evaluate()` crashes the search after exactly 1 of the 36
probes — the search does not probe 12 shifts × 3 rotations for this input
game state, and emits nothing. -/
theorem search_empty_preview_counterexample :
    search_main ⟨empty_grid, unit_block, []⟩ =
      some (⟨[List.replicate 32 Command.down ++ [Command.rotate]], [], []⟩,
        .error SearchCrash.noneBoard) ∧
    ([List.replicate 32 Command.down ++ [Command.rotate]] : List (List Command)).length ≠ 36 := by
  constructor
  · rfl
  · decide

/-- C6, witness: a concrete full run — empty board, one-cell piece, one
preview piece. -/
theorem search_amended_witness :
    ∃ acc res, search_main ⟨empty_grid, unit_block, [unit_block]⟩ = some (acc, res) ∧
      acc.attempts.length = 36 ∧
      (∀ mv ∈ acc.attempts, Command.drop ∉ mv) ∧
      (∀ s : Int, dict_lookup acc.choices s =
        acc.successes.foldl (fun r sv => if sv.1 = s then some sv.2 else r) none) ∧
      (∀ mv, res = .ok mv →
        ∃ smax, (acc.choices.map Prod.fst).max? = some smax ∧
          dict_lookup acc.choices smax = some mv ∧ Command.drop ∉ mv) :=
  search_amended ⟨empty_grid, unit_block, [unit_block]⟩ (by decide) (by decide)

end Dropblox
